import Mathlib

/-!
Verification of the alt-character identification engine of the groster
repository (src/groster/services.py, src/groster/constants.py).

The Python source is shallowly embedded: dictionaries become association
lists in insertion order (later inserts of an existing key update it in
place, as in CPython), Python floats on the similarity path become exact
rationals, fallible operations return Option, and the while-loop of the
clustering engine becomes a fuel-indexed recursion whose fuel is proven
sufficient at the input length.
-/

namespace Groster

/-- constants.py: achievement ID for the Level 10 achievement,
used to identify main characters. -/
def LEVEL_10_ACHIEVEMENT_ID : ℕ := 6

/-- constants.py: Jaccard similarity threshold for grouping alts
(0.8, exact as a rational). -/
def ALT_SIMILARITY_THRESHOLD : ℚ := 0.8

/-- constants.py: set of common, account-wide achievement IDs used to
identify characters. -/
def FINGERPRINT_ACHIEVEMENT_IDS : Finset ℕ :=
  {9670, 10693, 10691, 10689, 10687, 10685, 10682, 10692, 10690, 10688, 10686, 10684, 10681, 11176}

/-- One entry of a raw achievement list: a JSON object with an id and an
optional completed_timestamp (null becomes none). -/
structure AchEntry where
  id : ℕ
  ts : Option ℕ
deriving DecidableEq

/-- A Python dict as an association list in insertion order: inserting an
existing key updates its value in place, a new key is appended at the end
(CPython dict semantics). -/
def dictInsert {α β : Type} [DecidableEq α] : List (α × β) → α → β → List (α × β)
  | [], k, v => [(k, v)]
  | (k', v') :: rest, k, v =>
    if k' = k then (k, v) :: rest else (k', v') :: dictInsert rest k v

/-- Python dict .get(k): the value stored at key k, if any. -/
def dictGet {α β : Type} [DecidableEq α] : List (α × β) → α → Option β
  | [], _ => none
  | (k', v') :: rest, k => if k' = k then some v' else dictGet rest k

/-- Python d.get(k) on a dict whose values are optional ints: a missing key
and a stored null both read back as none. -/
def tsGet (m : List (ℕ × Option ℕ)) (k : ℕ) : Option ℕ :=
  match dictGet m k with
  | some v => v
  | none => none

/-- Python truthiness of an optional string: None and the empty string are
falsy. Returns the string when truthy. -/
def strTruthy : Option String → Option String
  | some s => if s = "" then none else some s
  | none => none

/-- Python truthiness of an optional int: None and 0 are falsy. -/
def natTruthy : Option ℕ → Option ℕ
  | some n => if n = 0 then none else some n
  | none => none

/-- services.py, fetch_member_fingerprint: the timestamps dict comprehension
over the raw achievement list, keeping entries whose id is in
FINGERPRINT_ACHIEVEMENT_IDS (later entries for the same id overwrite
earlier ones, as in a Python dict comprehension). -/
def buildTimestamps (achs : List AchEntry) : List (ℕ × Option ℕ) :=
  achs.foldl
    (fun m a =>
      if a.id ∈ FINGERPRINT_ACHIEVEMENT_IDS then dictInsert m a.id a.ts else m)
    []

/-- services.py, fetch_member_fingerprint: the timestamp of the first
achievement entry whose id is the Level 10 id (next(...) with default None). -/
def level10Ts (achs : List AchEntry) : Option ℕ :=
  match achs.find? (fun a => decide (a.id = LEVEL_10_ACHIEVEMENT_ID)) with
  | some a => a.ts
  | none => none

/-- services.py, fetch_member_fingerprint: add the Level 10 timestamp to the
timestamps dict when it is truthy (non-null and non-zero). -/
def addLevel10 (achs : List AchEntry) (m : List (ℕ × Option ℕ)) : List (ℕ × Option ℕ) :=
  match level10Ts achs with
  | some t => if t ≠ 0 then dictInsert m LEVEL_10_ACHIEVEMENT_ID (some t) else m
  | none => m

/-- The full timestamps dict built by fetch_member_fingerprint. -/
def timestampsOf (achs : List AchEntry) : List (ℕ × Option ℕ) :=
  addLevel10 achs (buildTimestamps achs)

/-- Lexicographic order on (achievement id, timestamp) pairs: the order used
by Python sorted() on 2-tuples of ints. -/
def pairLe (p q : ℕ × ℕ) : Prop :=
  p.1 < q.1 ∨ (p.1 = q.1 ∧ p.2 ≤ q.2)

instance : DecidableRel pairLe := fun p q => by unfold pairLe; infer_instance

/-- services.py, fetch_member_fingerprint: the filter of the generator
expression building the fingerprint, keeping a timestamps-dict item when
its value is truthy (non-null, non-zero) and its key is not the Level 10
id. -/
def fpPairFilter (kv : ℕ × Option ℕ) : Option (ℕ × ℕ) :=
  match kv.2 with
  | some t =>
    if t ≠ 0 ∧ kv.1 ≠ LEVEL_10_ACHIEVEMENT_ID then some (kv.1, t) else none
  | none => none

/-- services.py, fetch_member_fingerprint: the fingerprint is the sorted
tuple of (id, timestamp) pairs of the timestamps dict whose timestamp is
truthy and whose id is not the Level 10 id. -/
def fingerprintOf (achs : List AchEntry) : List (ℕ × ℕ) :=
  List.insertionSort pairLe ((timestampsOf achs).filterMap fpPairFilter)

/-- Modelled from the spec: the pair a raw achievement entry contributes
to the fingerprint described by the specification, namely its (id,
timestamp) when the id is a fingerprint achievement id, the timestamp is
non-null and non-zero, and the id is not the onboarding id. -/
def specPairOf (a : AchEntry) : Option (ℕ × ℕ) :=
  match a.ts with
  | some t =>
    if a.id ∈ FINGERPRINT_ACHIEVEMENT_IDS ∧ t ≠ 0 ∧ a.id ≠ LEVEL_10_ACHIEVEMENT_ID then
      some (a.id, t)
    else none
  | none => none

/-- Roster member character info: member.get("character", {}) with its id,
name and realm slug fields, each possibly missing. -/
structure CharInfo where
  id : Option ℕ
  name : Option String
  realm : Option String
deriving DecidableEq

/-- One member of the raw roster data. -/
structure Member where
  character : CharInfo
deriving DecidableEq

/-- The result dict of fetch_member_fingerprint for a valid member. -/
structure FPData where
  name : String
  fingerprint : List (ℕ × ℕ)
  timestamps : List (ℕ × Option ℕ)
deriving DecidableEq

/-- The result dict of fetch_member_pets_summary for a valid member. -/
structure PetsSummary where
  id : ℕ
  name : String
  realm : String
  pets : ℕ
deriving DecidableEq

/-- The result dict of fetch_member_mounts_summary for a valid member. -/
structure MountsSummary where
  id : ℕ
  name : String
  realm : String
  mounts : ℕ
deriving DecidableEq

/-- The external Blizzard API, seen through the data it returns:
achievements per (realm, name), and pet and mount collection item counts
per (realm, name). An empty achievements list models the falsy
ach_data.get("achievements") case. -/
structure Api where
  achievements : String → String → List AchEntry
  pets : String → String → ℕ
  mounts : String → String → ℕ

/-- services.py, fetch_member_fingerprint: returns none when the member has
no truthy name or realm; returns an empty fingerprint and empty timestamps
dict when the achievement list is empty or missing. -/
def fetchMemberFingerprint (api : Api) (m : Member) : Option FPData :=
  match strTruthy m.character.name, strTruthy m.character.realm with
  | some name, some realm =>
    let achs := api.achievements realm name
    if achs = [] then some ⟨name, [], []⟩
    else some ⟨name, fingerprintOf achs, timestampsOf achs⟩
  | _, _ => none

/-- services.py, fetch_member_pets_summary: requires a truthy name, realm
and character id; the pets field is the item count of the pet collection. -/
def fetchMemberPetsSummary (api : Api) (m : Member) : Option PetsSummary :=
  match strTruthy m.character.name, strTruthy m.character.realm,
        natTruthy m.character.id with
  | some name, some realm, some cid => some ⟨cid, name, realm, api.pets realm name⟩
  | _, _, _ => none

/-- services.py, fetch_member_mounts_summary: requires a truthy name, realm
and character id; the mounts field is the item count of the mount
collection. -/
def fetchMemberMountsSummary (api : Api) (m : Member) : Option MountsSummary :=
  match strTruthy m.character.name, strTruthy m.character.realm,
        natTruthy m.character.id with
  | some name, some realm, some cid => some ⟨cid, name, realm, api.mounts realm name⟩
  | _, _, _ => none

/-- services.py, identify_alts: the fingerprints_data dict keyed by
character name, built from the gathered per-member results in member order
(a later member with the same name overwrites an earlier one). -/
def fpMapOf (api : Api) (members : List Member) : List (String × FPData) :=
  members.foldl
    (fun m mem =>
      match fetchMemberFingerprint api mem with
      | some s => dictInsert m s.name s
      | none => m)
    []

/-- services.py, identify_alts: the pet_summaries dict keyed by name. -/
def petMapOf (api : Api) (members : List Member) : List (String × PetsSummary) :=
  members.foldl
    (fun m mem =>
      match fetchMemberPetsSummary api mem with
      | some s => dictInsert m s.name s
      | none => m)
    []

/-- services.py, identify_alts: the mount_summaries dict keyed by name. -/
def mountMapOf (api : Api) (members : List Member) : List (String × MountsSummary) :=
  members.foldl
    (fun m mem =>
      match fetchMemberMountsSummary api mem with
      | some s => dictInsert m s.name s
      | none => m)
    []

/-- One entry of all_char_data in identify_alts: the working record of a
character during clustering. -/
structure CharProfile where
  id : Option ℕ
  name : String
  realm : Option String
  pets : ℕ
  mounts : ℕ
  fingerprint : List (ℕ × ℕ)
  timestamps : List (ℕ × Option ℕ)
deriving DecidableEq

/-- services.py, identify_alts: build one all_char_data entry for a member;
none when the member has no truthy name. All per-character data is looked
up by name in the three dicts, with defaults 0, 0, () and {}. -/
def buildProfile (fpMap : List (String × FPData)) (petMap : List (String × PetsSummary))
    (mountMap : List (String × MountsSummary)) (mem : Member) : Option CharProfile :=
  match strTruthy mem.character.name with
  | none => none
  | some name =>
    some
      { id := mem.character.id
        name := name
        realm := mem.character.realm
        pets := ((dictGet petMap name).map (fun s => s.pets)).getD 0
        mounts := ((dictGet mountMap name).map (fun s => s.mounts)).getD 0
        fingerprint := ((dictGet fpMap name).map (fun s => s.fingerprint)).getD []
        timestamps := ((dictGet fpMap name).map (fun s => s.timestamps)).getD [] }

/-- services.py, identify_alts: the all_char_data list. -/
def allCharData (api : Api) (members : List Member) : List CharProfile :=
  members.filterMap
    (buildProfile (fpMapOf api members) (petMapOf api members) (mountMapOf api members))

/-- services.py, identify_alts: Jaccard similarity of two fingerprint sets,
with the degenerate empty-union case defined as 1.0 as in the source. -/
def similarity (a b : Finset (ℕ × ℕ)) : ℚ :=
  if (a ∪ b).card = 0 then 1
  else ((a ∩ b).card : ℚ) / ((a ∪ b).card : ℚ)

/-- services.py, identify_alts: one pass of the inner for-loop over the
unmatched pool for a fixed base fingerprint. Returns the candidates added
to the current group and the remaining_chars list, both in pool order. -/
def comparePool (baseFp : Finset (ℕ × ℕ)) : List CharProfile → List CharProfile × List CharProfile
  | [] => ([], [])
  | c :: rest =>
    let pr := comparePool baseFp rest
    if baseFp.card < 3 ∨ (c.fingerprint.toFinset).card < 3 then
      (pr.1, c :: pr.2)
    else if ALT_SIMILARITY_THRESHOLD ≤ similarity baseFp c.fingerprint.toFinset then
      (c :: pr.1, pr.2)
    else
      (pr.1, c :: pr.2)

/-- services.py, identify_alts: the while-loop over the unmatched pool, as
a recursion indexed by fuel. Each iteration pops the first profile as base,
splits the rest with comparePool, and appends the finished group. Fuel
equal to the pool length is sufficient (proven below), so the fuel never
runs out on the path taken by the source loop. -/
def clusterFuel : ℕ → List CharProfile → List (List CharProfile)
  | 0, _ => []
  | _ + 1, [] => []
  | n + 1, base :: rest =>
    let pr := comparePool base.fingerprint.toFinset rest
    (base :: pr.1) :: clusterFuel n pr.2

/-- services.py, identify_alts: the groups produced by the clustering
while-loop on a pool of profiles. -/
def clusterPool (pool : List CharProfile) : List (List CharProfile) :=
  clusterFuel pool.length pool

/-- services.py, _find_main_in_group: one step of the loop tracking the
earliest character. The accumulator none models the initial state
(earliest_char None, min_timestamp inf); otherwise it carries the pair
(earliest_char, min_timestamp). -/
def electStep (acc : Option (String × ℕ)) (c : CharProfile) : Option (String × ℕ) :=
  match tsGet c.timestamps LEVEL_10_ACHIEVEMENT_ID with
  | none => acc
  | some t =>
    match acc with
    | none => some (c.name, t)
    | some (n, mt) => if t < mt then some (c.name, t) else some (n, mt)

/-- services.py, _find_main_in_group: determines the main character by the
earliest Level 10 timestamp. The final Python expression
(earliest_char or group[0]["name"]) falls back to the first profile when
earliest_char is falsy, that is None or the empty string; indexing an empty
group raises, modeled by none. -/
def findMainInGroup (group : List CharProfile) : Option String :=
  match group.foldl electStep none with
  | some (n, _) => if n = "" then group.head?.map (fun c => c.name) else some n
  | none => group.head?.map (fun c => c.name)

/-- The name _find_main_in_group returns for a group of the clustering
engine (groups there are never empty, so the default is never used). -/
def mainNameOf (g : List CharProfile) : String :=
  (findMainInGroup g).getD ""

/-- services.py, identify_alts: the main_character_map dict, filled group
by group; every name of a group maps to that group's elected main, and a
later group containing the same name overwrites an earlier one. -/
def buildMainMap (groups : List (List CharProfile)) : List (String × String) :=
  groups.foldl
    (fun m g =>
      if g = [] then m
      else g.foldl (fun m' c => dictInsert m' c.name (mainNameOf g)) m)
    []

/-- One output record of identify_alts. -/
structure AltRecord where
  id : Option ℕ
  name : String
  alt : Bool
  main : String
deriving DecidableEq

/-- services.py, identify_alts: the alts_data list comprehension, one
record per all_char_data entry, in that order. -/
def altRecordsOf (chars : List CharProfile) (mainMap : List (String × String)) : List AltRecord :=
  chars.map fun c =>
    let mainN := (dictGet mainMap c.name).getD c.name
    ⟨c.id, c.name, decide (c.name ≠ mainN), mainN⟩

/-- services.py, identify_alts: the full pipeline from roster members to
the returned alts_data list, with the external fetches replaced by the api
record. An empty member list short-circuits to an empty result. -/
def identifyAlts (api : Api) (members : List Member) : List AltRecord :=
  if members = [] then []
  else
    let chars := allCharData api members
    altRecordsOf chars (buildMainMap (clusterPool chars))

/-- Output order on alt records used by the final
sort_values(by=["main", "name"]): ascending by main, then by name. -/
def recLe (a b : AltRecord) : Prop :=
  a.main < b.main ∨ (a.main = b.main ∧ a.name ≤ b.name)

instance : DecidableRel recLe := fun a b => by unfold recLe; infer_instance

instance : IsTrans AltRecord recLe := by
  constructor
  intro a b c hab hbc
  rcases hab with h1 | ⟨h1, h1n⟩ <;> rcases hbc with h2 | ⟨h2, h2n⟩
  · exact Or.inl (lt_trans h1 h2)
  · exact Or.inl (h2 ▸ h1)
  · exact Or.inl (h1 ▸ h2)
  · exact Or.inr ⟨h1.trans h2, le_trans h1n h2n⟩

instance : IsTotal AltRecord recLe := by
  constructor
  intro a b
  rcases lt_trichotomy a.main b.main with h | h | h
  · exact Or.inl (Or.inl h)
  · rcases le_total a.name b.name with hn | hn
    · exact Or.inl (Or.inr ⟨h, hn⟩)
    · exact Or.inr (Or.inr ⟨h.symm, hn⟩)
  · exact Or.inr (Or.inl h)

/-- services.py, identify_alts: the rows of the alts CSV, the alts_data
records sorted by (main, name) as by
pd.DataFrame(alts_data).sort_values(by=["main", "name"]). -/
def identifyAltsSorted (api : Api) (members : List Member) : List AltRecord :=
  List.insertionSort recLe (identifyAlts api members)

/-- A member has a truthy (present and non-empty) character name. This is
the only condition identify_alts checks before building an all_char_data
entry for a member. -/
def memberNameTruthy (m : Member) : Bool :=
  (strTruthy m.character.name).isSome

/-- The (name, Level 10 timestamp) pairs of the profiles of a group that
have a non-null onboarding timestamp, in group order. -/
def withTsOf (group : List CharProfile) : List (String × ℕ) :=
  group.filterMap fun c =>
    (tsGet c.timestamps LEVEL_10_ACHIEVEMENT_ID).map (fun t => (c.name, t))

/-- Keep the pair with the smaller timestamp, preferring the earlier
(accumulated) pair on ties. -/
def minStep (best p : String × ℕ) : String × ℕ :=
  if p.2 < best.2 then p else best

/-- Modelled from the spec: the elected main of a group is the name of the
profile whose timestamp map has the minimum non-null value at the
onboarding key, ties broken by first-encountered order; when no profile
has such a timestamp, the first profile of the group. Stated independently
of the source loop, for comparison with findMainInGroup. -/
def specMainName (group : List CharProfile) : Option String :=
  match withTsOf group with
  | [] => group.head?.map (fun c => c.name)
  | w :: ws => some (ws.foldl minStep w).1

/-- electStep specialized to the pairs that actually carry a timestamp. -/
def electStep2 (acc : Option (String × ℕ)) (p : String × ℕ) : Option (String × ℕ) :=
  match acc with
  | none => some p
  | some q => if p.2 < q.2 then some p else some q

/-- Modelled from the spec: the fingerprint described by the specification
of the extractor, namely the sorted sequence of (id, timestamp) pairs of
the raw achievement list whose id is a fingerprint achievement id, whose
timestamp is non-null and non-zero, and whose id is not the onboarding id.
Stated directly over the raw list, for comparison with fingerprintOf. -/
def specFingerprint (achs : List AchEntry) : List (ℕ × ℕ) :=
  List.insertionSort pairLe (achs.filterMap specPairOf)

/-- The last group of a group list that contains a profile with the given
name: later groups take precedence, mirroring the dict overwrites when
main_character_map is filled group by group. -/
def lastGroupContaining (name : String) : List (List CharProfile) → Option (List CharProfile)
  | [] => none
  | g :: gs =>
    match lastGroupContaining name gs with
    | some h => some h
    | none => if name ∈ g.map (fun c => c.name) then some g else none

/-- Api returning no achievements and zero collection counts, for concrete
evaluations. -/
def emptyApi : Api := ⟨fun _ _ => [], fun _ _ => 0, fun _ _ => 0⟩

/-- Profile with a two-entry (below the reliability floor) fingerprint. -/
def pTwoA : CharProfile := ⟨some 1, "Aa", some "r", 0, 0, [(9670, 5), (10693, 7)], []⟩

/-- Second profile with the same two-entry fingerprint. -/
def pTwoB : CharProfile := ⟨some 2, "Bb", some "r", 0, 0, [(9670, 5), (10693, 7)], []⟩

/-- Profile with a four-entry fingerprint, for the threshold witness. -/
def pFourFp : CharProfile :=
  ⟨some 3, "Main", some "r", 0, 0, [(1, 1), (2, 1), (3, 1), (4, 1)], [(6, some 10)]⟩

/-- Profile with a five-entry fingerprint sharing four entries with
pFourFp, so the Jaccard similarity is exactly 4/5 = 0.8. -/
def pFiveFp : CharProfile :=
  ⟨some 4, "Alt", some "r", 0, 0, [(1, 1), (2, 1), (3, 1), (4, 1), (5, 1)], [(6, some 20)]⟩

/-- Profile with no Level 10 timestamp, first in the counterexample group. -/
def pNoTs : CharProfile := ⟨some 1, "First", some "r", 0, 0, [], []⟩

/-- Profile whose name is the empty string and which holds the only
(hence minimal) non-null Level 10 timestamp of the group. -/
def pEmptyName : CharProfile := ⟨some 2, "", some "r", 0, 0, [], [(6, some 5)]⟩

/-- Member with a name but no realm slug. -/
def mNoRealm : Member := ⟨⟨some 1, some "Norealm", none⟩⟩

/-- Member named Dup on realm realmone. -/
def mDupA1 : Member := ⟨⟨some 1, some "Dup", some "realmone"⟩⟩

/-- Member also named Dup, on realm realmtwo. -/
def mDupA2 : Member := ⟨⟨some 2, some "Dup", some "realmtwo"⟩⟩

/-- Achievement list with a duplicated id: a completed entry followed by
an uncompleted entry for the same achievement. -/
def dupAchs : List AchEntry := [⟨9670, some 5⟩, ⟨9670, none⟩]

/-- Achievement list with pairwise distinct ids, containing fingerprint
ids with and without timestamps, a zero timestamp, the onboarding id and
an unrelated id. -/
def cleanAchs : List AchEntry :=
  [⟨10693, some 7⟩, ⟨9670, some 5⟩, ⟨6, some 9⟩, ⟨1, some 3⟩, ⟨10691, none⟩, ⟨10689, some 0⟩]

theorem comparePool_cons (fp : Finset (ℕ × ℕ)) (c : CharProfile) (rest : List CharProfile) :
    comparePool fp (c :: rest) =
      if fp.card < 3 ∨ (c.fingerprint.toFinset).card < 3 then
        ((comparePool fp rest).1, c :: (comparePool fp rest).2)
      else if ALT_SIMILARITY_THRESHOLD ≤ similarity fp c.fingerprint.toFinset then
        (c :: (comparePool fp rest).1, (comparePool fp rest).2)
      else
        ((comparePool fp rest).1, c :: (comparePool fp rest).2) := rfl

theorem comparePool_perm (fp : Finset (ℕ × ℕ)) (l : List CharProfile) :
    List.Perm ((comparePool fp l).1 ++ (comparePool fp l).2) l := by
  induction l with
  | nil => simp [comparePool]
  | cons c rest ih =>
    rw [comparePool_cons]
    split_ifs with h1 h2
    · exact List.perm_middle.trans (ih.cons c)
    · exact ih.cons c
    · exact List.perm_middle.trans (ih.cons c)

theorem comparePool_snd_length_le (fp : Finset (ℕ × ℕ)) (l : List CharProfile) :
    (comparePool fp l).2.length ≤ l.length := by
  induction l with
  | nil => simp [comparePool]
  | cons c rest ih =>
    rw [comparePool_cons]
    split_ifs with h1 h2 <;> simp only [List.length_cons] <;> omega

theorem comparePool_fst_nil (fp : Finset (ℕ × ℕ)) (l : List CharProfile)
    (h : fp.card < 3) : (comparePool fp l).1 = [] := by
  induction l with
  | nil => rfl
  | cons c rest ih =>
    rw [comparePool_cons, if_pos (Or.inl h)]
    exact ih

theorem mem_comparePool_fst (fp : Finset (ℕ × ℕ)) (l : List CharProfile) (c : CharProfile)
    (hc : c ∈ (comparePool fp l).1) :
    3 ≤ fp.card ∧ 3 ≤ (c.fingerprint.toFinset).card ∧
      ALT_SIMILARITY_THRESHOLD ≤ similarity fp c.fingerprint.toFinset ∧ c ∈ l := by
  induction l with
  | nil => exact absurd hc (by simp [comparePool])
  | cons d rest ih =>
    rw [comparePool_cons] at hc
    split_ifs at hc with h1 h2
    · obtain ⟨a, b, s, m⟩ := ih hc
      exact ⟨a, b, s, List.mem_cons_of_mem d m⟩
    · rcases List.mem_cons.mp hc with h | h
      · subst h
        push_neg at h1
        exact ⟨by omega, by omega, h2, List.mem_cons_self c rest⟩
      · obtain ⟨a, b, s, m⟩ := ih h
        exact ⟨a, b, s, List.mem_cons_of_mem d m⟩
    · obtain ⟨a, b, s, m⟩ := ih hc
      exact ⟨a, b, s, List.mem_cons_of_mem d m⟩

theorem comparePool_mem_fst (fp : Finset (ℕ × ℕ)) (l : List CharProfile) (c : CharProfile)
    (hcl : c ∈ l) (h1 : 3 ≤ fp.card) (h2 : 3 ≤ (c.fingerprint.toFinset).card)
    (h3 : ALT_SIMILARITY_THRESHOLD ≤ similarity fp c.fingerprint.toFinset) :
    c ∈ (comparePool fp l).1 := by
  induction l with
  | nil => exact absurd hcl (List.not_mem_nil c)
  | cons d rest ih =>
    rw [comparePool_cons]
    rcases List.mem_cons.mp hcl with h | h
    · subst h
      rw [if_neg (by omega), if_pos h3]
      exact List.mem_cons_self c _
    · split_ifs with g1 g2
      · exact ih h
      · exact List.mem_cons_of_mem d (ih h)
      · exact ih h

theorem clusterFuel_congr : ∀ (n m : ℕ) (l : List CharProfile),
    l.length ≤ n → l.length ≤ m → clusterFuel n l = clusterFuel m l := by
  intro n
  induction n with
  | zero =>
    intro m l hn _
    have hl : l = [] := List.length_eq_zero.mp (Nat.le_zero.mp hn)
    subst hl
    cases m <;> rfl
  | succ n ih =>
    intro m l hn hm
    cases l with
    | nil => cases m <;> rfl
    | cons base rest =>
      cases m with
      | zero =>
        simp only [List.length_cons] at hm
        omega
      | succ m =>
        show (base :: _) :: clusterFuel n _ = (base :: _) :: clusterFuel m _
        congr 1
        simp only [List.length_cons, Nat.succ_le_succ_iff] at hn hm
        exact ih m _ (le_trans (comparePool_snd_length_le _ _) hn)
          (le_trans (comparePool_snd_length_le _ _) hm)

theorem clusterPool_cons (base : CharProfile) (rest : List CharProfile) :
    clusterPool (base :: rest) =
      (base :: (comparePool base.fingerprint.toFinset rest).1) ::
        clusterPool (comparePool base.fingerprint.toFinset rest).2 := by
  show clusterFuel (base :: rest).length (base :: rest) = _
  simp only [List.length_cons]
  show (base :: _) :: clusterFuel rest.length _ = _
  congr 1
  exact clusterFuel_congr rest.length _ _ (comparePool_snd_length_le _ _) le_rfl

theorem clusterPool_rec (P : List CharProfile → Prop) (h0 : P [])
    (h1 : ∀ base rest, P (comparePool base.fingerprint.toFinset rest).2 → P (base :: rest)) :
    ∀ l, P l := by
  have key : ∀ n (l : List CharProfile), l.length ≤ n → P l := by
    intro n
    induction n with
    | zero =>
      intro l h
      have hl : l = [] := List.length_eq_zero.mp (Nat.le_zero.mp h)
      subst hl
      exact h0
    | succ n ih =>
      intro l hl
      cases l with
      | nil => exact h0
      | cons base rest =>
        apply h1
        apply ih
        simp only [List.length_cons, Nat.succ_le_succ_iff] at hl
        exact le_trans (comparePool_snd_length_le _ _) hl
  exact fun l => key l.length l le_rfl

theorem clusterPool_flatten_perm (l : List CharProfile) :
    List.Perm (clusterPool l).flatten l := by
  refine clusterPool_rec (fun l => List.Perm (clusterPool l).flatten l) (by simp [clusterPool, clusterFuel]) ?_ l
  intro base rest ih
  rw [clusterPool_cons]
  simp only [List.flatten_cons, List.cons_append]
  exact List.Perm.cons base
    ((List.Perm.append_left _ ih).trans (comparePool_perm _ _))

theorem mem_clusterPool_ne_nil (l : List CharProfile) :
    ∀ g ∈ clusterPool l, g ≠ [] := by
  refine clusterPool_rec (fun l => ∀ g ∈ clusterPool l, g ≠ []) (by simp [clusterPool, clusterFuel]) ?_ l
  intro base rest ih g hg
  rw [clusterPool_cons] at hg
  rcases List.mem_cons.mp hg with h | h
  · subst h
    exact List.cons_ne_nil _ _
  · exact ih g h

theorem clusterPool_small_group (l : List CharProfile) :
    ∀ g ∈ clusterPool l, ∀ p ∈ g, (p.fingerprint.toFinset).card < 3 → g = [p] := by
  refine clusterPool_rec
    (fun l => ∀ g ∈ clusterPool l, ∀ p ∈ g, (p.fingerprint.toFinset).card < 3 → g = [p])
    (by simp [clusterPool, clusterFuel]) ?_ l
  intro base rest ih g hg p hp hsmall
  rw [clusterPool_cons] at hg
  rcases List.mem_cons.mp hg with h | h
  · subst h
    rcases List.mem_cons.mp hp with h | h
    · subst h
      rw [comparePool_fst_nil _ _ hsmall]
    · obtain ⟨-, hb, -, -⟩ := mem_comparePool_fst _ _ _ h
      omega
  · exact ih g h p hp hsmall

/-- C1: for every input list of character profiles, the groups produced by
the clustering loop in identify_alts form an exact partition of the input:
no group is empty, and the concatenation of all groups is a permutation of
the input list (same multiset of profiles, so no profile occurrence is
duplicated or dropped). -/
theorem clusterPool_partition (pool : List CharProfile) :
    (∀ g ∈ clusterPool pool, g ≠ []) ∧ List.Perm (clusterPool pool).flatten pool :=
  ⟨mem_clusterPool_ne_nil pool, clusterPool_flatten_perm pool⟩

theorem clusterPool_partition_witness :
    ([pTwoA] : List CharProfile) ≠ [] ∧
      List.Perm (clusterPool [pTwoA, pTwoB]).flatten [pTwoA, pTwoB] :=
  ⟨(clusterPool_partition [pTwoA, pTwoB]).1 [pTwoA] (by decide),
    (clusterPool_partition [pTwoA, pTwoB]).2⟩

/-- C2: a profile whose fingerprint, viewed as a set of (achievement id,
timestamp) pairs, has fewer than 3 elements is always placed in a
singleton group by the clustering engine, and every group containing it is
that singleton, regardless of the other profiles in the input. -/
theorem reliability_floor_singleton (pool : List CharProfile) (p : CharProfile)
    (hp : p ∈ pool) (hsmall : (p.fingerprint.toFinset).card < 3) :
    [p] ∈ clusterPool pool ∧ ∀ g ∈ clusterPool pool, p ∈ g → g = [p] := by
  constructor
  · have hmem : p ∈ (clusterPool pool).flatten :=
      (clusterPool_flatten_perm pool).mem_iff.mpr hp
    obtain ⟨g, hg, hpg⟩ := List.mem_flatten.mp hmem
    have := clusterPool_small_group pool g hg p hpg hsmall
    rwa [this] at hg
  · exact fun g hg hpg => clusterPool_small_group pool g hg p hpg hsmall

theorem reliability_floor_singleton_witness :
    [pTwoA] ∈ clusterPool [pTwoA, pTwoB] ∧
      ∀ g ∈ clusterPool [pTwoA, pTwoB], pTwoA ∈ g → g = [pTwoA] :=
  reliability_floor_singleton [pTwoA, pTwoB] pTwoA (by decide) (by decide)

/-- C8: whenever both fingerprints reach the reliability floor (the only
case in which the clustering loop computes a similarity), the union of the
two fingerprint sets is non-empty, so the degenerate branch defining the
similarity as 1.0 is unreachable and the division is well-defined. -/
theorem similarity_union_nonempty (a b : Finset (ℕ × ℕ))
    (ha : 3 ≤ a.card) (_hb : 3 ≤ b.card) :
    (a ∪ b).card ≠ 0 ∧
      similarity a b = ((a ∩ b).card : ℚ) / ((a ∪ b).card : ℚ) := by
  have hu : 3 ≤ (a ∪ b).card :=
    le_trans ha (Finset.card_le_card Finset.subset_union_left)
  exact ⟨by omega, by rw [similarity, if_neg (by omega)]⟩

theorem similarity_union_nonempty_witness :
    ((([(1, 1), (2, 1), (3, 1)] : List (ℕ × ℕ)).toFinset ∪
        ([(1, 1), (2, 1), (4, 1)] : List (ℕ × ℕ)).toFinset).card ≠ 0) ∧
      similarity ([(1, 1), (2, 1), (3, 1)] : List (ℕ × ℕ)).toFinset
          ([(1, 1), (2, 1), (4, 1)] : List (ℕ × ℕ)).toFinset =
        ((([(1, 1), (2, 1), (3, 1)] : List (ℕ × ℕ)).toFinset ∩
            ([(1, 1), (2, 1), (4, 1)] : List (ℕ × ℕ)).toFinset).card : ℚ) /
          ((([(1, 1), (2, 1), (3, 1)] : List (ℕ × ℕ)).toFinset ∪
              ([(1, 1), (2, 1), (4, 1)] : List (ℕ × ℕ)).toFinset).card : ℚ) :=
  similarity_union_nonempty _ _ (by decide) (by decide)

/-- C9: the clustering while-loop terminates. Fuel equal to the pool
length is sufficient (so at most n outer iterations happen for n input
profiles), each outer iteration strictly shrinks the pool, and the number
of produced groups is at most the input length. -/
theorem clustering_terminates :
    (∀ (n : ℕ) (pool : List CharProfile), pool.length ≤ n →
        clusterFuel n pool = clusterPool pool) ∧
      (∀ (base : CharProfile) (rest : List CharProfile),
        ((comparePool base.fingerprint.toFinset rest).2).length < (base :: rest).length) ∧
      (∀ pool : List CharProfile, (clusterPool pool).length ≤ pool.length) := by
  refine ⟨fun n pool h => clusterFuel_congr n pool.length pool h le_rfl, ?_, ?_⟩
  · intro base rest
    simp only [List.length_cons]
    exact Nat.lt_succ_of_le (comparePool_snd_length_le _ _)
  · intro pool
    refine clusterPool_rec (fun l => (clusterPool l).length ≤ l.length) (by simp [clusterPool, clusterFuel]) ?_ pool
    intro base rest ih
    rw [clusterPool_cons]
    simp only [List.length_cons]
    exact Nat.succ_le_succ (le_trans ih (comparePool_snd_length_le _ _))

theorem clustering_terminates_witness :
    clusterFuel 5 [pTwoA, pTwoB] = clusterPool [pTwoA, pTwoB] :=
  clustering_terminates.1 5 [pTwoA, pTwoB] (by decide)

/-- C3: for a comparison actually performed by the clustering loop (both
fingerprint sets at or above the reliability floor, candidate in the
pool), the candidate joins the base group exactly when the Jaccard
similarity is at least the threshold; in particular a similarity exactly
equal to the threshold merges the two profiles into one group. -/
theorem threshold_inclusive_merge (base c : CharProfile) (rest : List CharProfile)
    (hc : c ∈ rest) (h1 : 3 ≤ (base.fingerprint.toFinset).card)
    (h2 : 3 ≤ (c.fingerprint.toFinset).card) :
    (c ∈ (comparePool base.fingerprint.toFinset rest).1 ↔
        ALT_SIMILARITY_THRESHOLD ≤ similarity base.fingerprint.toFinset c.fingerprint.toFinset) ∧
      (similarity base.fingerprint.toFinset c.fingerprint.toFinset = ALT_SIMILARITY_THRESHOLD →
        ∃ g ∈ clusterPool (base :: rest), base ∈ g ∧ c ∈ g) := by
  constructor
  · constructor
    · intro hmem
      exact (mem_comparePool_fst _ _ _ hmem).2.2.1
    · intro hsim
      exact comparePool_mem_fst _ _ _ hc h1 h2 hsim
  · intro heq
    refine ⟨base :: (comparePool base.fingerprint.toFinset rest).1, ?_, ?_, ?_⟩
    · rw [clusterPool_cons]
      exact List.mem_cons_self _ _
    · exact List.mem_cons_self _ _
    · exact List.mem_cons_of_mem base
        (comparePool_mem_fst _ _ _ hc h1 h2 (le_of_eq heq.symm))

theorem threshold_inclusive_merge_witness :
    ∃ g ∈ clusterPool [pFourFp, pFiveFp], pFourFp ∈ g ∧ pFiveFp ∈ g := by
  refine (threshold_inclusive_merge pFourFp pFiveFp [pFiveFp] (by decide) (by decide) (by decide)).2 ?_
  have hi : ((pFourFp.fingerprint.toFinset ∩ pFiveFp.fingerprint.toFinset).card : ℚ) = 4 := by decide
  have hu : ((pFourFp.fingerprint.toFinset ∪ pFiveFp.fingerprint.toFinset).card : ℚ) = 5 := by decide
  have hne : (pFourFp.fingerprint.toFinset ∪ pFiveFp.fingerprint.toFinset).card ≠ 0 := by decide
  rw [similarity, if_neg hne, hi, hu, ALT_SIMILARITY_THRESHOLD]
  norm_num

theorem foldl_electStep_eq (group : List CharProfile) :
    ∀ acc, group.foldl electStep acc = (withTsOf group).foldl electStep2 acc := by
  induction group with
  | nil => intro acc; rfl
  | cons c rest ih =>
    intro acc
    cases h : tsGet c.timestamps LEVEL_10_ACHIEVEMENT_ID with
    | none =>
      have e1 : electStep acc c = acc := by simp [electStep, h]
      have e2 : withTsOf (c :: rest) = withTsOf rest := by simp [withTsOf, h]
      rw [List.foldl_cons, e1, e2]
      exact ih acc
    | some t =>
      have e1 : electStep acc c = electStep2 acc (c.name, t) := by
        cases acc with
        | none => simp [electStep, electStep2, h]
        | some q => cases q; simp [electStep, electStep2, h]
      have e2 : withTsOf (c :: rest) = (c.name, t) :: withTsOf rest := by
        simp [withTsOf, h]
      rw [List.foldl_cons, e1, e2, List.foldl_cons]
      exact ih _

theorem foldl_electStep2_some (ws : List (String × ℕ)) :
    ∀ w, ws.foldl electStep2 (some w) = some (ws.foldl minStep w) := by
  induction ws with
  | nil => intro w; rfl
  | cons p rest ih =>
    intro w
    rw [List.foldl_cons, List.foldl_cons]
    have e : electStep2 (some w) p = some (minStep w p) := by
      by_cases h : p.2 < w.2 <;> simp [electStep2, minStep, h]
    rw [e]
    exact ih _

theorem foldl_minStep_mem (ws : List (String × ℕ)) :
    ∀ w, ws.foldl minStep w ∈ w :: ws := by
  induction ws with
  | nil => intro w; exact List.mem_cons_self _ _
  | cons p rest ih =>
    intro w
    rw [List.foldl_cons]
    rcases List.mem_cons.mp (ih (minStep w p)) with h | h
    · by_cases hc : p.2 < w.2
      · have e : minStep w p = p := by simp [minStep, hc]
        rw [h, e]
        exact List.mem_cons_of_mem _ (List.mem_cons_self _ _)
      · have e : minStep w p = w := by simp [minStep, hc]
        rw [h, e]
        exact List.mem_cons_self _ _
    · exact List.mem_cons_of_mem _ (List.mem_cons_of_mem _ h)

theorem withTsOf_name_mem (group : List CharProfile) (p : String × ℕ)
    (hp : p ∈ withTsOf group) : ∃ c ∈ group, c.name = p.1 := by
  obtain ⟨c, hc, he⟩ := List.mem_filterMap.mp hp
  cases h : tsGet c.timestamps LEVEL_10_ACHIEVEMENT_ID with
  | none => rw [h] at he; exact absurd he (by simp)
  | some t =>
    rw [h] at he
    simp only [Option.map_some'] at he
    exact ⟨c, hc, congrArg Prod.fst (Option.some.inj he)⟩

/-- C4 (amended): for a non-empty group in which every profile name is a
non-empty string — as identify_alts guarantees, since it drops members
with falsy names — _find_main_in_group always returns a name, and that
name is the spec-side elected main: the profile with the minimum non-null
Level 10 timestamp, ties broken by first-encountered order, with the first
profile as fallback when no timestamp is present. (Without the non-empty
name condition, an empty-string winner would be falsy in Python and fall
back to the first profile; see the counterexample.) -/
theorem findMain_elects_min_level10 (group : List CharProfile) (hne : group ≠ [])
    (hnames : ∀ p ∈ group, p.name ≠ "") :
    (findMainInGroup group).isSome ∧ findMainInGroup group = specMainName group := by
  have hhead : ∃ c, group.head? = some c := by
    cases group with
    | nil => exact absurd rfl hne
    | cons g gs => exact ⟨g, rfl⟩
  obtain ⟨c0, hc0⟩ := hhead
  rw [findMainInGroup, foldl_electStep_eq]
  cases hw : withTsOf group with
  | nil =>
    rw [specMainName, hw]
    simp [hc0]
  | cons w ws =>
    rw [List.foldl_cons]
    have e : electStep2 none w = some w := rfl
    rw [e, foldl_electStep2_some]
    have hmem : ws.foldl minStep w ∈ withTsOf group := by
      rw [hw]
      exact foldl_minStep_mem ws w
    obtain ⟨c, hcg, hcn⟩ := withTsOf_name_mem group _ hmem
    have hname : (ws.foldl minStep w).1 ≠ "" := by
      rw [← hcn]
      exact hnames c hcg
    rw [specMainName, hw]
    simp [hname]

theorem findMain_elects_min_level10_witness :
    (findMainInGroup [pFourFp, pFiveFp]).isSome ∧
      findMainInGroup [pFourFp, pFiveFp] = specMainName [pFourFp, pFiveFp] :=
  findMain_elects_min_level10 [pFourFp, pFiveFp] (by decide) (by decide)

/-- C4 counterexample: in the group [pNoTs, pEmptyName], the only profile
with a non-null Level 10 timestamp is pEmptyName, so the claim says its
name is returned; but its name is the empty string, which is falsy in
Python, so _find_main_in_group falls back to the first profile and
returns "First" instead. -/
theorem findMain_empty_name_counterexample :
    tsGet pNoTs.timestamps LEVEL_10_ACHIEVEMENT_ID = none ∧
      tsGet pEmptyName.timestamps LEVEL_10_ACHIEVEMENT_ID = some 5 ∧
      pEmptyName.name = "" ∧
      findMainInGroup [pNoTs, pEmptyName] = some "First" ∧
      findMainInGroup [pNoTs, pEmptyName] ≠ some pEmptyName.name := by
  refine ⟨rfl, rfl, rfl, rfl, ?_⟩
  decide

/-- C5: for every input roster, the record sequence written to the alts
CSV (the alts_data records sorted by sort_values(by=["main", "name"])) is
non-decreasing in the pair (main, name), both ascending in the ordinal
case-sensitive string order, and holds exactly the records of alts_data. -/
theorem identifyAltsSorted_sorted (api : Api) (members : List Member) :
    List.Sorted recLe (identifyAltsSorted api members) ∧
      List.Perm (identifyAltsSorted api members) (identifyAlts api members) :=
  ⟨List.sorted_insertionSort recLe (identifyAlts api members),
    List.perm_insertionSort recLe (identifyAlts api members)⟩

theorem dictGet_dictInsert {α β : Type} [DecidableEq α] (m : List (α × β)) (k k' : α) (v : β) :
    dictGet (dictInsert m k v) k' = if k' = k then some v else dictGet m k' := by
  induction m with
  | nil =>
    by_cases h : k' = k
    · subst h
      simp [dictInsert, dictGet]
    · have h2 : ¬ k = k' := fun g => h g.symm
      simp [dictInsert, dictGet, h, h2]
  | cons p rest ih =>
    obtain ⟨pk, pv⟩ := p
    show dictGet (if pk = k then (k, v) :: rest else (pk, pv) :: dictInsert rest k v) k' = _
    by_cases hpk : pk = k
    · rw [if_pos hpk]
      subst hpk
      by_cases h : k' = pk
      · subst h
        simp [dictGet]
      · have h2 : ¬ pk = k' := fun g => h g.symm
        simp [dictGet, h, h2]
    · rw [if_neg hpk]
      by_cases h1 : pk = k'
      · have hk : ¬ k' = k := fun g => hpk (h1.trans g)
        simp [dictGet, h1, hk]
      · simp [dictGet, h1, ih]

theorem fetchMemberFingerprint_none (api : Api) (m : Member)
    (h : strTruthy m.character.name = none) : fetchMemberFingerprint api m = none := by
  rw [fetchMemberFingerprint, h]

theorem fetchMemberPetsSummary_none (api : Api) (m : Member)
    (h : strTruthy m.character.name = none) : fetchMemberPetsSummary api m = none := by
  rw [fetchMemberPetsSummary, h]

theorem fetchMemberMountsSummary_none (api : Api) (m : Member)
    (h : strTruthy m.character.name = none) : fetchMemberMountsSummary api m = none := by
  rw [fetchMemberMountsSummary, h]

theorem foldl_skip_untruthy {β : Type} (step : β → Member → β)
    (hstep : ∀ acc m, strTruthy m.character.name = none → step acc m = acc) :
    ∀ (l : List Member) (acc : β),
      (l.filter memberNameTruthy).foldl step acc = l.foldl step acc := by
  intro l
  induction l with
  | nil => intro acc; rfl
  | cons m rest ih =>
    intro acc
    by_cases h : memberNameTruthy m
    · rw [List.filter_cons_of_pos h, List.foldl_cons, List.foldl_cons]
      exact ih _
    · have hn : strTruthy m.character.name = none := by
        simpa [memberNameTruthy, Option.not_isSome_iff_eq_none] using h
      rw [List.filter_cons_of_neg (by simpa using h), List.foldl_cons, hstep acc m hn]
      exact ih acc

theorem fpMapOf_filter (api : Api) (members : List Member) :
    fpMapOf api (members.filter memberNameTruthy) = fpMapOf api members := by
  unfold fpMapOf
  exact foldl_skip_untruthy _
    (fun acc m h => by rw [fetchMemberFingerprint_none api m h]) members []

theorem petMapOf_filter (api : Api) (members : List Member) :
    petMapOf api (members.filter memberNameTruthy) = petMapOf api members := by
  unfold petMapOf
  exact foldl_skip_untruthy _
    (fun acc m h => by rw [fetchMemberPetsSummary_none api m h]) members []

theorem mountMapOf_filter (api : Api) (members : List Member) :
    mountMapOf api (members.filter memberNameTruthy) = mountMapOf api members := by
  unfold mountMapOf
  exact foldl_skip_untruthy _
    (fun acc m h => by rw [fetchMemberMountsSummary_none api m h]) members []

theorem buildProfile_none (fpMap : List (String × FPData)) (petMap : List (String × PetsSummary))
    (mountMap : List (String × MountsSummary)) (mem : Member)
    (h : strTruthy mem.character.name = none) :
    buildProfile fpMap petMap mountMap mem = none := by
  rw [buildProfile, h]

theorem buildProfile_isSome (fpMap : List (String × FPData)) (petMap : List (String × PetsSummary))
    (mountMap : List (String × MountsSummary)) (mem : Member)
    (h : memberNameTruthy mem) :
    (buildProfile fpMap petMap mountMap mem).isSome := by
  rw [buildProfile]
  obtain ⟨nm, hnm⟩ := Option.isSome_iff_exists.mp (by simpa [memberNameTruthy] using h)
  rw [hnm]
  rfl

theorem filterMap_skip_untruthy {β : Type} (f : Member → Option β)
    (hf : ∀ m, strTruthy m.character.name = none → f m = none) :
    ∀ l : List Member, (l.filter memberNameTruthy).filterMap f = l.filterMap f := by
  intro l
  induction l with
  | nil => rfl
  | cons m rest ih =>
    by_cases h : memberNameTruthy m
    · rw [List.filter_cons_of_pos h, List.filterMap_cons, List.filterMap_cons]
      cases f m <;> simp [ih]
    · have hn : strTruthy m.character.name = none := by
        simpa [memberNameTruthy, Option.not_isSome_iff_eq_none] using h
      rw [List.filter_cons_of_neg (by simpa using h), List.filterMap_cons, hf m hn]
      exact ih

theorem allCharData_filter (api : Api) (members : List Member) :
    allCharData api (members.filter memberNameTruthy) = allCharData api members := by
  unfold allCharData
  rw [fpMapOf_filter, petMapOf_filter, mountMapOf_filter]
  exact filterMap_skip_untruthy _ (fun m h => buildProfile_none _ _ _ m h) members

theorem identifyAlts_eq (api : Api) (members : List Member) :
    identifyAlts api members =
      altRecordsOf (allCharData api members)
        (buildMainMap (clusterPool (allCharData api members))) := by
  by_cases h : members = []
  · subst h; rfl
  · rw [identifyAlts, if_neg h]

theorem filterMap_length_of_isSome {α β : Type} (f : α → Option β) :
    ∀ l : List α, (∀ a ∈ l, (f a).isSome) → (l.filterMap f).length = l.length := by
  intro l
  induction l with
  | nil => intro _; rfl
  | cons a rest ih =>
    intro h
    obtain ⟨b, hb⟩ := Option.isSome_iff_exists.mp (h a (List.mem_cons_self a rest))
    rw [List.filterMap_cons, hb]
    simp only [List.length_cons]
    rw [ih (fun x hx => h x (List.mem_cons_of_mem a hx))]

/-- C6 (amended): identify_alts skips exactly the members without a truthy
name: its output on any roster equals its output on the roster filtered to
truthy-named members, and it emits exactly one record per truthy-named
member. In particular a member with a name but a missing realm is NOT
skipped (it is clustered and emitted with an empty fingerprint and zero
counts, because the per-member fetchers return None for it), and the only
observable effect of skipping is the count discrepancy; no exception is
raised (the embedding is total). -/
theorem identifyAlts_skips_only_missing_name (api : Api) (members : List Member) :
    identifyAlts api members = identifyAlts api (members.filter memberNameTruthy) ∧
      (identifyAlts api members).length = (members.filter memberNameTruthy).length := by
  have hchars : allCharData api (members.filter memberNameTruthy) = allCharData api members :=
    allCharData_filter api members
  constructor
  · rw [identifyAlts_eq, identifyAlts_eq, hchars]
  · rw [identifyAlts_eq]
    unfold altRecordsOf
    rw [List.length_map, ← hchars]
    unfold allCharData
    rw [fpMapOf_filter, petMapOf_filter, mountMapOf_filter]
    refine filterMap_length_of_isSome _ _ ?_
    intro m hm
    exact buildProfile_isSome _ _ _ m (List.of_mem_filter hm)

/-- C6 counterexample: a member with a truthy name but no realm slug is
not skipped by identify_alts: it yields an output record (with empty
fingerprint data, hence its own main), so the output is not shorter than
the roster. -/
theorem missing_realm_not_skipped_counterexample :
    mNoRealm.character.realm = none ∧
      identifyAlts emptyApi [mNoRealm] = [⟨some 1, "Norealm", false, "Norealm"⟩] ∧
      (identifyAlts emptyApi [mNoRealm]).length = 1 := by
  refine ⟨rfl, by decide, by decide⟩

theorem dictGet_groupFold (g : List CharProfile) (v : String) :
    ∀ (m : List (String × String)) (name : String),
      dictGet (g.foldl (fun m' c => dictInsert m' c.name v) m) name =
        if name ∈ g.map (fun c => c.name) then some v else dictGet m name := by
  induction g with
  | nil => intro m name; simp
  | cons c rest ih =>
    intro m name
    rw [List.foldl_cons, ih]
    by_cases h : name ∈ rest.map (fun c => c.name)
    · simp [h]
    · rw [if_neg h, dictGet_dictInsert]
      by_cases h2 : name = c.name
      · simp [h2]
      · simp [h2, h]

theorem buildMainMap_fold_get :
    ∀ (groups : List (List CharProfile)) (m : List (String × String)) (name : String),
      dictGet (groups.foldl
          (fun m g =>
            if g = [] then m
            else g.foldl (fun m' c => dictInsert m' c.name (mainNameOf g)) m)
          m) name =
        match lastGroupContaining name groups with
        | some g => some (mainNameOf g)
        | none => dictGet m name := by
  intro groups
  induction groups with
  | nil => intro m name; rfl
  | cons g gs ih =>
    intro m name
    rw [List.foldl_cons, ih]
    have hstep : dictGet (if g = [] then m
        else g.foldl (fun m' c => dictInsert m' c.name (mainNameOf g)) m) name =
        if name ∈ g.map (fun c => c.name) then some (mainNameOf g) else dictGet m name := by
      by_cases hg : g = []
      · subst hg; simp
      · rw [if_neg hg]
        exact dictGet_groupFold g (mainNameOf g) m name
    cases hl : lastGroupContaining name gs with
    | some h => simp [lastGroupContaining, hl]
    | none =>
      by_cases hmem : name ∈ g.map (fun c => c.name) <;>
        simp [lastGroupContaining, hl, hmem, hstep]

theorem dictGet_buildMainMap (groups : List (List CharProfile)) (name : String) :
    dictGet (buildMainMap groups) name = (lastGroupContaining name groups).map mainNameOf := by
  rw [buildMainMap, buildMainMap_fold_get groups [] name]
  cases lastGroupContaining name groups <;> rfl

theorem mem_altRecordsOf (chars : List CharProfile) (mm : List (String × String))
    (r : AltRecord) (hr : r ∈ altRecordsOf chars mm) :
    r.main = (dictGet mm r.name).getD r.name ∧ r.alt = decide (r.name ≠ r.main) := by
  obtain ⟨c, hc, rfl⟩ := List.mem_map.mp hr
  exact ⟨rfl, rfl⟩

theorem mem_allCharData_fields (api : Api) (members : List Member) (p : CharProfile)
    (hp : p ∈ allCharData api members) :
    p.fingerprint = ((dictGet (fpMapOf api members) p.name).map (fun s => s.fingerprint)).getD [] ∧
      p.timestamps = ((dictGet (fpMapOf api members) p.name).map (fun s => s.timestamps)).getD [] ∧
      p.pets = ((dictGet (petMapOf api members) p.name).map (fun s => s.pets)).getD 0 ∧
      p.mounts = ((dictGet (mountMapOf api members) p.name).map (fun s => s.mounts)).getD 0 := by
  obtain ⟨mem, hmem, he⟩ := List.mem_filterMap.mp hp
  rw [buildProfile] at he
  cases h : strTruthy mem.character.name with
  | none => rw [h] at he; exact absurd he (by simp)
  | some nm =>
    rw [h] at he
    obtain rfl := Option.some.inj he
    exact ⟨rfl, rfl, rfl, rfl⟩

/-- C10: identify_alts keys all per-character lookups by name alone. Two
output records with the same name always carry the same main and the same
alt flag; two working profiles with the same name always carry the same
fingerprint, timestamps, pet and mount counts (the name-keyed lookups);
and the main looked up in main_character_map is always the elected main of
the last clustering group containing a profile of that name. -/
theorem name_keyed_lookup (api : Api) (members : List Member) :
    (∀ r₁ r₂ : AltRecord, r₁ ∈ identifyAlts api members → r₂ ∈ identifyAlts api members →
        r₁.name = r₂.name → r₁.main = r₂.main ∧ r₁.alt = r₂.alt) ∧
      (∀ p₁ p₂ : CharProfile, p₁ ∈ allCharData api members → p₂ ∈ allCharData api members →
        p₁.name = p₂.name →
        p₁.fingerprint = p₂.fingerprint ∧ p₁.timestamps = p₂.timestamps ∧
          p₁.pets = p₂.pets ∧ p₁.mounts = p₂.mounts) ∧
      (∀ (groups : List (List CharProfile)) (name : String),
        dictGet (buildMainMap groups) name = (lastGroupContaining name groups).map mainNameOf) := by
  refine ⟨?_, ?_, fun groups name => dictGet_buildMainMap groups name⟩
  · intro r₁ r₂ h1 h2 hn
    rw [identifyAlts_eq] at h1 h2
    obtain ⟨hm1, ha1⟩ := mem_altRecordsOf _ _ _ h1
    obtain ⟨hm2, ha2⟩ := mem_altRecordsOf _ _ _ h2
    have hmain : r₁.main = r₂.main := by rw [hm1, hm2, hn]
    exact ⟨hmain, by rw [ha1, ha2, hn, hmain]⟩
  · intro p₁ p₂ h1 h2 hn
    obtain ⟨hf1, ht1, hp1, hmo1⟩ := mem_allCharData_fields _ _ _ h1
    obtain ⟨hf2, ht2, hp2, hmo2⟩ := mem_allCharData_fields _ _ _ h2
    refine ⟨?_, ?_, ?_, ?_⟩
    · rw [hf1, hf2, hn]
    · rw [ht1, ht2, hn]
    · rw [hp1, hp2, hn]
    · rw [hmo1, hmo2, hn]

theorem name_keyed_lookup_witness :
    (⟨some 1, "Dup", false, "Dup"⟩ : AltRecord).main =
        (⟨some 2, "Dup", false, "Dup"⟩ : AltRecord).main ∧
      (⟨some 1, "Dup", false, "Dup"⟩ : AltRecord).alt =
        (⟨some 2, "Dup", false, "Dup"⟩ : AltRecord).alt :=
  (name_keyed_lookup emptyApi [mDupA1, mDupA2]).1
    ⟨some 1, "Dup", false, "Dup"⟩ ⟨some 2, "Dup", false, "Dup"⟩
    (by decide) (by decide) rfl

theorem dictInsert_append {α β : Type} [DecidableEq α] (m : List (α × β)) (k : α) (v : β)
    (h : k ∉ m.map Prod.fst) : dictInsert m k v = m ++ [(k, v)] := by
  induction m with
  | nil => rfl
  | cons p rest ih =>
    obtain ⟨pk, pv⟩ := p
    simp only [List.map_cons, List.mem_cons] at h
    push_neg at h
    obtain ⟨h1, h2⟩ := h
    show (if pk = k then (k, v) :: rest else (pk, pv) :: dictInsert rest k v) = _
    rw [if_neg (fun g => h1 g.symm), List.cons_append, ih h2]

theorem buildTimestamps_aux :
    ∀ (achs : List AchEntry) (m : List (ℕ × Option ℕ)),
      (achs.map (fun a => a.id)).Nodup →
      (∀ a ∈ achs, a.id ∉ m.map Prod.fst) →
      achs.foldl
          (fun m a =>
            if a.id ∈ FINGERPRINT_ACHIEVEMENT_IDS then dictInsert m a.id a.ts else m)
          m =
        m ++ (achs.filter (fun a => decide (a.id ∈ FINGERPRINT_ACHIEVEMENT_IDS))).map
          (fun a => (a.id, a.ts)) := by
  intro achs
  induction achs with
  | nil => intro m _ _; simp
  | cons a rest ih =>
    intro m hnd hfresh
    simp only [List.map_cons, List.nodup_cons] at hnd
    obtain ⟨ha, hnd⟩ := hnd
    rw [List.foldl_cons]
    by_cases hfp : a.id ∈ FINGERPRINT_ACHIEVEMENT_IDS
    · rw [if_pos hfp, dictInsert_append m a.id a.ts (hfresh a (List.mem_cons_self a rest))]
      rw [ih (m ++ [(a.id, a.ts)]) hnd ?_]
      · rw [List.filter_cons_of_pos (by simpa using hfp), List.map_cons]
        simp [List.append_assoc]
      · intro b hb
        have hbne : b.id ≠ a.id := by
          intro g
          exact ha (g ▸ List.mem_map_of_mem (fun x => x.id) hb)
        simp [List.map_append, hfresh b (List.mem_cons_of_mem a hb), hbne]
    · rw [if_neg hfp, List.filter_cons_of_neg (by simpa using hfp)]
      exact ih m hnd (fun b hb => hfresh b (List.mem_cons_of_mem a hb))

theorem buildTimestamps_eq (achs : List AchEntry)
    (hnd : (achs.map (fun a => a.id)).Nodup) :
    buildTimestamps achs =
      (achs.filter (fun a => decide (a.id ∈ FINGERPRINT_ACHIEVEMENT_IDS))).map
        (fun a => (a.id, a.ts)) := by
  rw [buildTimestamps, buildTimestamps_aux achs [] hnd (by simp)]
  rfl

theorem level10_not_fingerprint : LEVEL_10_ACHIEVEMENT_ID ∉ FINGERPRINT_ACHIEVEMENT_IDS := by
  decide

theorem level10_not_key (achs : List AchEntry) :
    LEVEL_10_ACHIEVEMENT_ID ∉
      ((achs.filter (fun a => decide (a.id ∈ FINGERPRINT_ACHIEVEMENT_IDS))).map
        (fun a => (a.id, a.ts))).map Prod.fst := by
  intro h
  obtain ⟨y, hy, he⟩ := List.mem_map.mp h
  obtain ⟨x, hx, rfl⟩ := List.mem_map.mp hy
  have hxf : x.id ∈ FINGERPRINT_ACHIEVEMENT_IDS :=
    of_decide_eq_true (List.mem_filter.mp hx).2
  have he2 : x.id = LEVEL_10_ACHIEVEMENT_ID := he
  exact level10_not_fingerprint (he2 ▸ hxf)

theorem filterMap_fpPair (achs : List AchEntry) :
    ((achs.filter (fun a => decide (a.id ∈ FINGERPRINT_ACHIEVEMENT_IDS))).map
        (fun a => (a.id, a.ts))).filterMap fpPairFilter =
      achs.filterMap specPairOf := by
  induction achs with
  | nil => rfl
  | cons a rest ih =>
    by_cases hfp : a.id ∈ FINGERPRINT_ACHIEVEMENT_IDS
    · rw [List.filter_cons_of_pos (by simpa using hfp), List.map_cons,
        List.filterMap_cons, List.filterMap_cons]
      cases hts : a.ts with
      | none =>
        have e1 : fpPairFilter (a.id, none) = none := rfl
        have e2 : specPairOf a = none := by simp [specPairOf, hts]
        rw [e1, e2, ih]
      | some t =>
        by_cases hc : t ≠ 0 ∧ a.id ≠ LEVEL_10_ACHIEVEMENT_ID
        · have e1 : fpPairFilter (a.id, some t) = some (a.id, t) := by
            simp [fpPairFilter, hc.1, hc.2]
          have e2 : specPairOf a = some (a.id, t) := by
            simp [specPairOf, hts, hfp, hc.1, hc.2]
          rw [e1, e2, ih]
        · have e1 : fpPairFilter (a.id, some t) = none := by
            simp only [fpPairFilter]
            exact if_neg hc
          have e2 : specPairOf a = none := by
            have hng : ¬ (a.id ∈ FINGERPRINT_ACHIEVEMENT_IDS ∧ t ≠ 0 ∧ a.id ≠ LEVEL_10_ACHIEVEMENT_ID) :=
              fun g => hc ⟨g.2.1, g.2.2⟩
            simp only [specPairOf, hts]
            exact if_neg hng
          rw [e1, e2, ih]
    · rw [List.filter_cons_of_neg (by simpa using hfp), List.filterMap_cons]
      have e2 : specPairOf a = none := by
        cases hts : a.ts with
        | none => simp [specPairOf, hts]
        | some t =>
          have hng : ¬ (a.id ∈ FINGERPRINT_ACHIEVEMENT_IDS ∧ t ≠ 0 ∧ a.id ≠ LEVEL_10_ACHIEVEMENT_ID) :=
            fun g => hfp g.1
          simp only [specPairOf, hts]
          exact if_neg hng
      rw [e2, ih]

theorem fpPairFilter_level10 (t : ℕ) :
    fpPairFilter (LEVEL_10_ACHIEVEMENT_ID, some t) = none := by
  simp [fpPairFilter]

theorem fingerprintOf_eq_spec (achs : List AchEntry)
    (hnd : (achs.map (fun a => a.id)).Nodup) :
    fingerprintOf achs = specFingerprint achs := by
  rw [fingerprintOf, specFingerprint]
  congr 1
  rw [timestampsOf, addLevel10, buildTimestamps_eq achs hnd]
  cases hl : level10Ts achs with
  | none => exact filterMap_fpPair achs
  | some t =>
    dsimp only
    by_cases ht : t ≠ 0
    · rw [if_pos ht, dictInsert_append _ _ _ (level10_not_key achs),
        List.filterMap_append]
      have h0 : List.filterMap fpPairFilter [(LEVEL_10_ACHIEVEMENT_ID, some t)] = [] := by
        rw [List.filterMap_cons, fpPairFilter_level10]
        rfl
      rw [h0, List.append_nil]
      exact filterMap_fpPair achs
    · rw [if_neg ht]
      exact filterMap_fpPair achs

/-- C7 (amended): for raw achievement lists without duplicated ids (the
shape the upstream API produces), the extractor's fingerprint is exactly
the spec's: the sorted sequence of (id, timestamp) pairs with a
fingerprint achievement id, a non-null, non-zero timestamp and an id
different from the onboarding id; and for a member whose achievement list
is empty or missing, the extractor returns an empty fingerprint and an
empty timestamp map instead of failing. For lists that repeat an id, the
dict comprehension keeps only the last occurrence's timestamp before
filtering, so the claim as stated fails (see the counterexample). -/
theorem fingerprint_extractor_spec :
    (∀ achs : List AchEntry, (achs.map (fun a => a.id)).Nodup →
        fingerprintOf achs = specFingerprint achs) ∧
      (∀ (api : Api) (m : Member) (nm rl : String),
        strTruthy m.character.name = some nm →
        strTruthy m.character.realm = some rl →
        api.achievements rl nm = [] →
        fetchMemberFingerprint api m = some ⟨nm, [], []⟩) := by
  constructor
  · exact fun achs hnd => fingerprintOf_eq_spec achs hnd
  · intro api m nm rl h1 h2 h3
    rw [fetchMemberFingerprint, h1, h2]
    simp [h3]

theorem fingerprint_extractor_spec_witness :
    fingerprintOf cleanAchs = specFingerprint cleanAchs ∧
      fetchMemberFingerprint emptyApi mDupA1 = some ⟨"Dup", [], []⟩ :=
  ⟨fingerprint_extractor_spec.1 cleanAchs (by decide),
    fingerprint_extractor_spec.2 emptyApi mDupA1 "Dup" "realmone" (by decide) (by decide) rfl⟩

/-- C7 counterexample: on the raw list [(9670, 5), (9670, null)] the
claimed value keeps the completed pair (9670, 5), but the extractor's dict
comprehension lets the later null entry overwrite the timestamp of id
9670, so the produced fingerprint is empty. -/
theorem fingerprint_duplicate_id_counterexample :
    fingerprintOf dupAchs = [] ∧ specFingerprint dupAchs = [(9670, 5)] ∧
      fingerprintOf dupAchs ≠ specFingerprint dupAchs := by
  refine ⟨by decide, by decide, by decide⟩

end Groster
